import Mathlib

/-!
Shallow embedding of the github-stats reporting pipeline (src/index.js and
the unnamed variant src/unnamed/part_000) together with proofs about its
statistics stage.  Timestamps are modelled as integers (milliseconds since
the epoch, the value a JS Date coerces to under subtraction and ordering);
JS NaN outcomes are modelled as none; a thrown TypeError is modelled as an
Except error.
-/

namespace GithubStats

/-- An author node as returned by the GraphQL query: an object carrying a
login string. -/
structure Author where
  login : String
  deriving Repr, DecidableEq

/-- A pull-request node of the GraphQL response.  The two JS variants read
the fields number, author.login, state, mergedAt, createdAt, title and
changedFiles.  Timestamps are already parsed to epoch milliseconds. -/
structure PR where
  number : Int
  author : Author
  state : String
  mergedAt : Int
  createdAt : Int
  title : String
  changedFiles : Int
  deriving Repr, DecidableEq

/-- Open duration of a PR in milliseconds, the JS expression
new Date(pr.mergedAt) - new Date(pr.createdAt). -/
def openTime (pr : PR) : Int := pr.mergedAt - pr.createdAt

/-- The date filter of src/index.js lines 106-109: keep the nodes whose
mergedAt is strictly before endDate and strictly after startDate
(isBefore and isAfter are strict comparisons). -/
def dateFilterMerged (nodes : List PR) (startDate endDate : Int) : List PR :=
  nodes.filter (fun node =>
    decide (node.mergedAt < endDate) && decide (startDate < node.mergedAt))

/-- The date filter of src/unnamed/part_000 lines 65-68: same shape, but the
reference timestamp is createdAt. -/
def dateFilterCreated (nodes : List PR) (startDate endDate : Int) : List PR :=
  nodes.filter (fun node =>
    decide (node.createdAt < endDate) && decide (startDate < node.createdAt))

/-- The median function of src/index.js lines 15-24: sort ascending with the
numeric comparator, let half = floor(length / 2); for odd length return the
element at half, for even length the average of the elements at half - 1 and
half.  On the empty list the JS code reads out-of-bounds slots and yields
NaN, modelled as none. -/
def medianJs (durations : List Int) : Option ℚ :=
  let sorted := List.insertionSort (· ≤ ·) durations
  let half := sorted.length / 2
  if sorted.length % 2 = 1 then
    (sorted.get? half).map (fun v => (v : ℚ))
  else
    match sorted.get? (half - 1), sorted.get? half with
    | some a, some b => some (((a : ℚ) + (b : ℚ)) / 2)
    | _, _ => none

/-- One step of the author-count accumulation of src/index.js lines 137-145:
owners[login]++ updates the entry in place keeping its position, while a new
login is appended at the end, matching JS object insertion order. -/
def bump : List (String × Nat) → String → List (String × Nat)
  | [], login => [(login, 1)]
  | (k, v) :: rest, login =>
      if k = login then (k, v + 1) :: rest else (k, v) :: bump rest login

/-- The author-count mapping: prs.reduce over an initially empty object. -/
def authorsOf (prs : List PR) : List (String × Nat) :=
  prs.foldl (fun owners pr => bump owners pr.author.login) []

/-- Specification-side description of first-occurrence order: the head of the
input followed by the first-occurrence order of the tail with all copies of
the head removed. -/
def firstSeen : List String → List String
  | [] => []
  | x :: xs => x :: firstSeen (xs.filter (fun y => y ≠ x))
  termination_by l => l.length
  decreasing_by
    simp only [List.length_cons]
    exact Nat.lt_succ_of_le (List.length_filter_le _ _)

/-- The body of the shortest reduce of src/index.js lines 152-159: if the
accumulator is null take the candidate, otherwise replace it only when the
candidate open time is strictly smaller. -/
def shortestStep (a : Option PR) (b : PR) : Option PR :=
  match a with
  | none => some b
  | some a0 => if openTime b < openTime a0 then some b else some a0

/-- The shortest reduction: prs.reduce(shortestStep, null).  The strict
comparison means the first PR reaching the minimum wins. -/
def shortestJs (prs : List PR) : Option PR :=
  prs.foldl shortestStep none

/-- The body of the longest reduce of src/index.js lines 160-167: same shape
with a strictly-greater test. -/
def longestStep (a : Option PR) (b : PR) : Option PR :=
  match a with
  | none => some b
  | some a0 => if openTime b > openTime a0 then some b else some a0

/-- The longest reduction: prs.reduce(longestStep, null). -/
def longestJs (prs : List PR) : Option PR :=
  prs.foldl longestStep none

/-- Recursive description of the shortest fold once seeded: the running
minimum, replaced only on strict improvement. -/
def minFirst (a : PR) : List PR → PR
  | [] => a
  | b :: t => if openTime b < openTime a then minFirst b t else minFirst a t

/-- Recursive description of the longest fold once seeded. -/
def maxFirst (a : PR) : List PR → PR
  | [] => a
  | b :: t => if openTime b > openTime a then maxFirst b t else maxFirst a t

/-- The total of src/index.js lines 179-182: reduce adding each open time to
an accumulator starting at 0. -/
def totalMs (prs : List PR) : Int :=
  prs.foldl (fun a b => a + openTime b) 0

/-- meanInMs = total / prs.length.  For the empty list JS computes 0 / 0 =
NaN, modelled as none. -/
def meanJs (prs : List PR) : Option ℚ :=
  if prs.length = 0 then none else some ((totalMs prs : ℚ) / (prs.length : ℚ))

/-- Modelled from the spec: the percentile computation is delegated to the
third-party percentile library, whose code is not part of this repository.
The spec describes it as a nearest-rank style method over the PR-tagged
duration list: sort ascending by the extracted key and take the entry of
rank ceiling(p / 100 * n), counting from 1.  The ceiling is computed in
integer arithmetic as (p * n + 99) / 100. -/
def percentileNearestRank (p : Nat) (l : List (PR × Int)) : Option (PR × Int) :=
  let sorted := List.insertionSort (fun x y => x.2 ≤ y.2) l
  let k := max 1 ((p * sorted.length + 99) / 100)
  sorted.get? (k - 1)

/-- percentileVals of src/index.js lines 200-203: each PR tagged with its own
open time. -/
def percentileVals (prs : List PR) : List (PR × Int) :=
  prs.map (fun pr => (pr, openTime pr))

/-- p90 = percentile(90, percentileVals, item => item.openTime). -/
def p90Js (prs : List PR) : Option (PR × Int) :=
  percentileNearestRank 90 (percentileVals prs)

/-- Error outcomes of the statistics-and-rendering stage.  nullDeref models
the JS TypeError raised by reading a property of null or undefined.
emptyDataset models the EmptyDatasetError named by the spec; the code under
src never constructs such an error, the constructor exists only so the
spec's claimed behaviour can be stated and compared. -/
inductive JsError where
  | nullDeref
  | emptyDataset
  deriving Repr, DecidableEq

/-- The values printed by the Time to merge block. -/
structure MergeStats where
  shortestNumber : Int
  longestNumber : Int
  mean : Option ℚ
  median : Option ℚ
  p90Number : Int
  deriving Repr, DecidableEq

/-- The Time to merge block of src/index.js lines 151-210.  The property
reads shortest.createdAt, longest.createdAt and p90.openTime throw a
TypeError when the corresponding value is null or undefined; mean and median
are plain arithmetic and cannot throw (they give NaN on the empty list,
modelled as none inside the record). -/
def timeToMergeBlock (prs : List PR) : Except JsError MergeStats :=
  match shortestJs prs with
  | none => .error .nullDeref
  | some s =>
    match longestJs prs with
    | none => .error .nullDeref
    | some l =>
      match p90Js prs with
      | none => .error .nullDeref
      | some p =>
          .ok ⟨s.number, l.number, meanJs prs,
               medianJs (prs.map openTime), p.1.number⟩

/-- Heap of JS arrays: the display stage mutates an array in place, so array
values are modelled behind numeric references into a store. -/
abbrev Heap := List (List PR)

/-- Read the array a reference denotes. -/
def readArr (h : Heap) (r : Nat) : List PR := (List.get? h r).getD []

/-- Overwrite the array a reference denotes, as an in-place sort does. -/
def writeArr (h : Heap) (r : Nat) (v : List PR) : Heap := List.set h r v

/-- Allocate a fresh array, returning the new store and its reference. -/
def allocArr (h : Heap) (v : List PR) : Heap × Nat := (h ++ [v], List.length h)

/-- The comparator of src/index.js lines 121-125: ascending by open time. -/
def sortByOpenTime (l : List PR) : List PR :=
  List.insertionSort (fun a b => openTime a ≤ openTime b) l

/-- The display stage of src/index.js lines 121-125: f = prs.map(a => a)
allocates a fresh array holding the same elements, then f.sort(...) sorts
that fresh array in place.  Returns the new store and the reference to f. -/
def displayStage (h : Heap) (prsRef : Nat) : Heap × Nat :=
  let copy := (readArr h prsRef).map (fun a => a)
  let af := allocArr h copy
  let h2 := writeArr af.1 af.2 (sortByOpenTime (readArr af.1 af.2))
  (h2, af.2)

/-- Authorization header construction of src/index.js lines 64-73: the line
const token = process.env.GH_TOKEN reads the environment variable into a
binding that is never used afterwards; the headers object receives an
Authorization entry only when args.token is truthy (present and non-empty).
Returns the Authorization header value, none when headers stays empty. -/
def buildHeaders (argsToken : Option String) (envToken : Option String) :
    Option String :=
  let _token := envToken
  match argsToken with
  | some t => if t = "" then none else some ("Bearer " ++ t)
  | none => none

/-- Build a merged PR node from a number, a login and the two timestamps. -/
def mkPR (n : Int) (login : String) (c m : Int) : PR :=
  ⟨n, ⟨login⟩, "MERGED", m, c, "", 0⟩

/-- The end-to-end scenario of the spec: three merged PRs, the third merged
outside the (0, 100) window. -/
def e2eNodes : List PR :=
  [mkPR 1 "alice" 10 30, mkPR 2 "bob" 20 60, mkPR 3 "alice" 40 150]

/-- The tie-break scenario of the spec: open durations 5, 1, 9, 1. -/
def tieNodes : List PR :=
  [mkPR 1 "a" 0 5, mkPR 2 "b" 0 1, mkPR 3 "c" 0 9, mkPR 4 "d" 0 1]

/-- The author scenario of the spec: logins A, B, A. -/
def authorNodes : List PR :=
  [mkPR 1 "A" 0 1, mkPR 2 "B" 0 1, mkPR 3 "A" 0 1]

/-- A list whose first PR violates the invariant mergedAt at least createdAt,
so its open duration is negative. -/
def negNodes : List PR :=
  [mkPR 1 "neg" 100 40, mkPR 2 "pos" 0 10]

/-- Keys a fold of bump appends to an accumulator whose key list is seen:
each login not seen yet, in order of first occurrence. -/
def newKeys (seen : List String) : List String → List String
  | [] => []
  | x :: xs => if x ∈ seen then newKeys seen xs else x :: newKeys (seen ++ [x]) xs

/-- C9: the claim says that with no --token flag the bearer token is read
from the environment variable and sent in the Authorization header.  The
code reads GH_TOKEN into an unused binding, so with the flag absent the
headers object stays empty whatever the environment holds, while the flag
path does set the header. -/
theorem env_token_never_sent :
    buildHeaders none (some "secret") = none ∧
    buildHeaders none (some "secret") ≠ some ("Bearer " ++ "secret") ∧
    buildHeaders (some "secret") none = some ("Bearer " ++ "secret") := by
  refine ⟨rfl, ?_, rfl⟩
  intro h
  simp [buildHeaders] at h

/-- C1 counterexample: on the empty filtered set no statistic raises the
EmptyDatasetError the claim describes.  The shortest and longest reduces
return null, the rendering of the Time to merge block fails with a null
dereference (a TypeError, explicitly excluded by the claim), the mean is
NaN (also excluded), and the median and the 90th percentile input are NaN
and undefined respectively. -/
theorem empty_set_null_deref_counterexample :
    timeToMergeBlock [] = Except.error JsError.nullDeref ∧
    JsError.nullDeref ≠ JsError.emptyDataset ∧
    shortestJs [] = none ∧ longestJs [] = none ∧
    meanJs [] = none ∧ medianJs [] = none ∧ p90Js [] = none :=
  ⟨rfl, by decide, rfl, rfl, rfl, rfl, rfl⟩

/-- C1 amended: whenever the date filter returns the empty list, the mean
and the median are NaN and rendering the Time to merge block fails with a
null-dereference TypeError; no EmptyDatasetError exists in the code.  The
rejected promise is printed by the top-level catch, so the user sees the
TypeError message instead of a report. -/
theorem empty_filter_nan_mean_and_type_error (nodes : List PR) (s e : Int)
    (h : dateFilterMerged nodes s e = []) :
    meanJs (dateFilterMerged nodes s e) = none ∧
    medianJs ((dateFilterMerged nodes s e).map openTime) = none ∧
    timeToMergeBlock (dateFilterMerged nodes s e) =
      Except.error JsError.nullDeref := by
  rw [h]
  exact ⟨rfl, rfl, rfl⟩

/-- C1 witness: a window no fetched PR falls into. -/
theorem empty_filter_nan_mean_and_type_error_witness :
    meanJs (dateFilterMerged e2eNodes 1000 2000) = none ∧
    medianJs ((dateFilterMerged e2eNodes 1000 2000).map openTime) = none ∧
    timeToMergeBlock (dateFilterMerged e2eNodes 1000 2000) =
      Except.error JsError.nullDeref :=
  empty_filter_nan_mean_and_type_error e2eNodes 1000 2000 (by decide)

/-- C3: both date-filter variants keep exactly the PRs whose reference
timestamp (mergedAt in src/index.js, createdAt in src/unnamed/part_000)
lies strictly between startDate and endDate; a PR whose reference timestamp
equals either boundary is excluded, and the filter output is a
subsequence of its input. -/
theorem date_filter_strict_window (nodes : List PR) (s e : Int) (pr : PR) :
    (pr ∈ dateFilterMerged nodes s e ↔
      pr ∈ nodes ∧ s < pr.mergedAt ∧ pr.mergedAt < e) ∧
    (pr ∈ dateFilterCreated nodes s e ↔
      pr ∈ nodes ∧ s < pr.createdAt ∧ pr.createdAt < e) ∧
    (pr.mergedAt = s ∨ pr.mergedAt = e → pr ∉ dateFilterMerged nodes s e) ∧
    (pr.createdAt = s ∨ pr.createdAt = e → pr ∉ dateFilterCreated nodes s e) ∧
    List.Sublist (dateFilterMerged nodes s e) nodes ∧
    List.Sublist (dateFilterCreated nodes s e) nodes := by
  have hm : pr ∈ dateFilterMerged nodes s e ↔
      pr ∈ nodes ∧ s < pr.mergedAt ∧ pr.mergedAt < e := by
    simp only [dateFilterMerged, List.mem_filter, Bool.and_eq_true,
      decide_eq_true_eq]
    tauto
  have hc : pr ∈ dateFilterCreated nodes s e ↔
      pr ∈ nodes ∧ s < pr.createdAt ∧ pr.createdAt < e := by
    simp only [dateFilterCreated, List.mem_filter, Bool.and_eq_true,
      decide_eq_true_eq]
    tauto
  refine ⟨hm, hc, ?_, ?_, List.filter_sublist _, List.filter_sublist _⟩
  · intro hb hmem
    have := (hm.mp hmem).2
    rcases hb with hb | hb <;> omega
  · intro hb hmem
    have := (hc.mp hmem).2
    rcases hb with hb | hb <;> omega

/-- C3 witness: a PR merged exactly at the end boundary is excluded, the
same PR is kept once the boundary moves past its merge time. -/
theorem date_filter_strict_window_witness :
    mkPR 1 "x" 10 20 ∉ dateFilterMerged [mkPR 1 "x" 10 20] 0 20 ∧
    mkPR 1 "x" 10 20 ∈ dateFilterMerged [mkPR 1 "x" 10 20] 0 30 :=
  ⟨(date_filter_strict_window [mkPR 1 "x" 10 20] 0 20 (mkPR 1 "x" 10 20)).2.2.1
      (Or.inr rfl),
   ((date_filter_strict_window [mkPR 1 "x" 10 20] 0 30 (mkPR 1 "x" 10 20)).1).mpr
      ⟨by decide, by decide, by decide⟩⟩

/-- C10: the display stage sorts a fresh copy (prs.map(a => a)) in place, so
the array the prs reference denotes is unchanged afterwards: every later
statistic (author counts, the stable shortest and longest reduces, mean,
median, p90) reads the filtered PRs in their original fetch order, while the
fresh array holds the ascending-by-open-duration listing. -/
theorem display_sort_leaves_prs_unchanged (h : Heap) (r : Nat)
    (hr : r < h.length) :
    readArr (displayStage h r).1 r = readArr h r ∧
    readArr (displayStage h r).1 (displayStage h r).2 =
      sortByOpenTime (readArr h r) ∧
    authorsOf (readArr (displayStage h r).1 r) = authorsOf (readArr h r) ∧
    shortestJs (readArr (displayStage h r).1 r) = shortestJs (readArr h r) ∧
    longestJs (readArr (displayStage h r).1 r) = longestJs (readArr h r) ∧
    meanJs (readArr (displayStage h r).1 r) = meanJs (readArr h r) ∧
    p90Js (readArr (displayStage h r).1 r) = p90Js (readArr h r) := by
  have hne : h.length ≠ r := by omega
  have hcopy : readArr (h ++ [(readArr h r).map (fun a => a)]) h.length =
      (readArr h r).map (fun a => a) := by
    simp [readArr]
  have hmain : readArr (displayStage h r).1 r = readArr h r := by
    simp only [displayStage, allocArr, writeArr, readArr]
    rw [List.get?_set_ne _ _ hne, List.get?_append hr]
  have hf : readArr (displayStage h r).1 (displayStage h r).2 =
      sortByOpenTime (readArr h r) := by
    simp only [displayStage, allocArr, writeArr, readArr]
    rw [List.get?_set_eq]
    simp [List.getElem?_concat_length]
  exact ⟨hmain, hf, by rw [hmain], by rw [hmain], by rw [hmain],
    by rw [hmain], by rw [hmain]⟩

/-- C10 witness: a one-array store holding the tie-break scenario. -/
theorem display_sort_leaves_prs_unchanged_witness :
    readArr (displayStage [tieNodes] 0).1 0 = readArr [tieNodes] 0 ∧
    readArr (displayStage [tieNodes] 0).1 (displayStage [tieNodes] 0).2 =
      sortByOpenTime (readArr [tieNodes] 0) :=
  ⟨(display_sort_leaves_prs_unchanged [tieNodes] 0 (by decide)).1,
   (display_sort_leaves_prs_unchanged [tieNodes] 0 (by decide)).2.1⟩

/-- The accumulating reduce of the total equals the sum of the open times. -/
theorem foldl_add_openTime (l : List PR) :
    ∀ a : Int, l.foldl (fun x b => x + openTime b) a = a + (l.map openTime).sum := by
  induction l with
  | nil => intro a; simp
  | cons p t ih =>
      intro a
      rw [List.foldl_cons, ih (a + openTime p)]
      simp [List.map_cons, List.sum_cons]
      ring

theorem totalMs_eq_sum (prs : List PR) : totalMs prs = (prs.map openTime).sum := by
  rw [totalMs, foldl_add_openTime prs 0]
  ring

/-- C7: for every non-empty filtered list the mean is the sum of the open
durations divided by the count, and in the end-to-end scenario (three
fetched PRs, the third merged outside the (0, 100) window) the Total is 2
and the Mean is the average of the two included durations, 20 and 40 ms. -/
theorem mean_is_sum_div_count :
    (∀ prs : List PR, prs ≠ [] →
      meanJs prs = some (((prs.map openTime).sum : ℚ) / (prs.length : ℚ))) ∧
    (dateFilterMerged e2eNodes 0 100).length = 2 ∧
    meanJs (dateFilterMerged e2eNodes 0 100) = some (((20 : ℚ) + 40) / 2) := by
  have hfilter : dateFilterMerged e2eNodes 0 100 =
      [mkPR 1 "alice" 10 30, mkPR 2 "bob" 20 60] := by decide
  refine ⟨?_, by decide, ?_⟩
  · intro prs hne
    have hlen : prs.length ≠ 0 := by
      simpa [List.length_eq_zero] using hne
    rw [meanJs, if_neg hlen, totalMs_eq_sum]
  · rw [hfilter]
    simp [meanJs, totalMs, openTime, mkPR]
    norm_num

/-- C7 witness: the mean formula applied to the end-to-end filtered list. -/
theorem mean_is_sum_div_count_witness :
    meanJs [mkPR 1 "alice" 10 30, mkPR 2 "bob" 20 60] =
      some ((([mkPR 1 "alice" 10 30, mkPR 2 "bob" 20 60].map openTime).sum : ℚ) /
        (([mkPR 1 "alice" 10 30, mkPR 2 "bob" 20 60] : List PR).length : ℚ)) :=
  mean_is_sum_div_count.1 [mkPR 1 "alice" 10 30, mkPR 2 "bob" 20 60] (by decide)

/-- C2: for every non-empty duration list, the median is the middle element
of the ascending-sorted list for odd length and the average of the two
middle elements for even length; the sorted list is characterised
abstractly as any sorted permutation of the input, and the two examples of
the spec are checked. -/
theorem median_sort_and_pick :
    (∀ (l s : List Int), l ≠ [] → s.Perm l → s.Sorted (· ≤ ·) →
      medianJs l = some (
        if l.length % 2 = 1 then ((s.getD (l.length / 2) 0 : Int) : ℚ)
        else (((s.getD (l.length / 2 - 1) 0 : Int) : ℚ) +
              ((s.getD (l.length / 2) 0 : Int) : ℚ)) / 2)) ∧
    medianJs [1, 2, 3] = some 2 ∧
    medianJs [1, 2, 3, 4] = some (5 / 2) := by
  refine ⟨?_, ?_, ?_⟩
  · intro l s hne hperm hsorted
    have hsort : List.insertionSort (· ≤ ·) l = s :=
      List.eq_of_perm_of_sorted
        ((List.perm_insertionSort _ l).trans hperm.symm)
        (List.sorted_insertionSort _ l) hsorted
    have hslen : s.length = l.length := hperm.length_eq
    have hpos : 0 < l.length := List.length_pos.mpr hne
    rw [medianJs]
    simp only [hsort, hslen]
    by_cases hodd : l.length % 2 = 1
    · rw [if_pos hodd, if_pos hodd]
      have hhalf : l.length / 2 < s.length := by
        rw [hslen]; omega
      rw [List.get?_eq_get hhalf]
      simp [List.getD_eq_get?, List.getElem?_eq_getElem hhalf]
    · rw [if_neg hodd, if_neg hodd]
      have hge2 : 2 ≤ l.length := by omega
      have hB : l.length / 2 < s.length := by rw [hslen]; omega
      have hA : l.length / 2 - 1 < s.length := by rw [hslen]; omega
      rw [List.get?_eq_get hA, List.get?_eq_get hB]
      simp [List.getD_eq_get?, List.getElem?_eq_getElem hA,
        List.getElem?_eq_getElem hB]
  · rfl
  · have h4 : medianJs [1, 2, 3, 4] = some ((((2 : Int) : ℚ) + ((3 : Int) : ℚ)) / 2) := rfl
    rw [h4]
    norm_num

/-- C2 witness: the rule applied to the unsorted list 3, 1, 2 with its
sorted permutation 1, 2, 3. -/
theorem median_sort_and_pick_witness :
    medianJs [3, 1, 2] = some (
      if ([3, 1, 2] : List Int).length % 2 = 1 then
        (([1, 2, 3].getD (([3, 1, 2] : List Int).length / 2) 0 : Int) : ℚ)
      else ((([1, 2, 3].getD (([3, 1, 2] : List Int).length / 2 - 1) 0 : Int) : ℚ) +
            (([1, 2, 3].getD (([3, 1, 2] : List Int).length / 2) 0 : Int) : ℚ)) / 2) :=
  median_sort_and_pick.1 [3, 1, 2] [1, 2, 3] (by decide) (by decide) (by decide)

/-- The seeded shortest fold is the running strict minimum. -/
theorem foldl_shortestStep (l : List PR) :
    ∀ a : PR, l.foldl shortestStep (some a) = some (minFirst a l) := by
  induction l with
  | nil => intro a; rfl
  | cons b t ih =>
      intro a
      rw [List.foldl_cons, minFirst]
      by_cases hb : openTime b < openTime a
      · rw [show shortestStep (some a) b = some b by simp [shortestStep, hb],
          if_pos hb, ih b]
      · rw [show shortestStep (some a) b = some a by simp [shortestStep, hb],
          if_neg hb, ih a]

theorem shortestJs_cons (p : PR) (l : List PR) :
    shortestJs (p :: l) = some (minFirst p l) := by
  rw [shortestJs, List.foldl_cons]
  exact foldl_shortestStep l p

/-- The seeded longest fold is the running strict maximum. -/
theorem foldl_longestStep (l : List PR) :
    ∀ a : PR, l.foldl longestStep (some a) = some (maxFirst a l) := by
  induction l with
  | nil => intro a; rfl
  | cons b t ih =>
      intro a
      rw [List.foldl_cons, maxFirst]
      by_cases hb : openTime b > openTime a
      · rw [show longestStep (some a) b = some b by simp [longestStep, hb],
          if_pos hb, ih b]
      · rw [show longestStep (some a) b = some a by simp [longestStep, hb],
          if_neg hb, ih a]

theorem longestJs_cons (p : PR) (l : List PR) :
    longestJs (p :: l) = some (maxFirst p l) := by
  rw [longestJs, List.foldl_cons]
  exact foldl_longestStep l p

theorem minFirst_mem (l : List PR) : ∀ a : PR, minFirst a l ∈ a :: l := by
  induction l with
  | nil => intro a; simp [minFirst]
  | cons b t ih =>
      intro a
      rw [minFirst]
      by_cases hb : openTime b < openTime a
      · rw [if_pos hb]
        have := ih b
        simp only [List.mem_cons] at this ⊢
        tauto
      · rw [if_neg hb]
        have := ih a
        simp only [List.mem_cons] at this ⊢
        tauto

theorem maxFirst_mem (l : List PR) : ∀ a : PR, maxFirst a l ∈ a :: l := by
  induction l with
  | nil => intro a; simp [maxFirst]
  | cons b t ih =>
      intro a
      rw [maxFirst]
      by_cases hb : openTime b > openTime a
      · rw [if_pos hb]
        have := ih b
        simp only [List.mem_cons] at this ⊢
        tauto
      · rw [if_neg hb]
        have := ih a
        simp only [List.mem_cons] at this ⊢
        tauto

theorem minFirst_le (l : List PR) :
    ∀ a : PR, openTime (minFirst a l) ≤ openTime a ∧
      ∀ q ∈ l, openTime (minFirst a l) ≤ openTime q := by
  induction l with
  | nil => intro a; simp [minFirst]
  | cons b t ih =>
      intro a
      rw [minFirst]
      by_cases hb : openTime b < openTime a
      · rw [if_pos hb]
        obtain ⟨h1, h2⟩ := ih b
        refine ⟨by omega, ?_⟩
        intro q hq
        rcases List.mem_cons.mp hq with hq | hq
        · rw [hq]; exact h1
        · exact h2 q hq
      · rw [if_neg hb]
        obtain ⟨h1, h2⟩ := ih a
        refine ⟨h1, ?_⟩
        intro q hq
        rcases List.mem_cons.mp hq with hq | hq
        · rw [hq]; omega
        · exact h2 q hq

theorem maxFirst_ge (l : List PR) :
    ∀ a : PR, openTime a ≤ openTime (maxFirst a l) ∧
      ∀ q ∈ l, openTime q ≤ openTime (maxFirst a l) := by
  induction l with
  | nil => intro a; simp [maxFirst]
  | cons b t ih =>
      intro a
      rw [maxFirst]
      by_cases hb : openTime b > openTime a
      · rw [if_pos hb]
        obtain ⟨h1, h2⟩ := ih b
        refine ⟨by omega, ?_⟩
        intro q hq
        rcases List.mem_cons.mp hq with hq | hq
        · rw [hq]; omega
        · exact h2 q hq
      · rw [if_neg hb]
        obtain ⟨h1, h2⟩ := ih a
        refine ⟨h1, ?_⟩
        intro q hq
        rcases List.mem_cons.mp hq with hq | hq
        · rw [hq]; omega
        · exact h2 q hq

/-- The running strict minimum is the first element reaching the minimal
open time: searching the seeded list for its open time finds it. -/
theorem minFirst_find (l : List PR) :
    ∀ a : PR,
      List.find? (fun q => decide (openTime q = openTime (minFirst a l))) (a :: l) =
        some (minFirst a l) := by
  induction l with
  | nil => intro a; simp [minFirst]
  | cons b t ih =>
      intro a
      rw [minFirst]
      by_cases hb : openTime b < openTime a
      · rw [if_pos hb]
        have hle := (minFirst_le t b).1
        have hne : ¬ (openTime a = openTime (minFirst b t)) := by omega
        rw [List.find?_cons_of_neg _ (by simp [hne])]
        exact ih b
      · rw [if_neg hb]
        have hle := (minFirst_le t a).1
        by_cases heq : openTime a = openTime (minFirst a t)
        · have hfind := ih a
          rw [List.find?_cons_of_pos _ (by simp [heq])] at hfind ⊢
          exact hfind
        · have hbne : ¬ (openTime b = openTime (minFirst a t)) := by omega
          have hfind := ih a
          rw [List.find?_cons_of_neg _ (by simp [heq])] at hfind
          rw [List.find?_cons_of_neg _ (by simp [heq]),
            List.find?_cons_of_neg _ (by simp [hbne])]
          exact hfind

/-- The running strict maximum is the first element reaching the maximal
open time. -/
theorem maxFirst_find (l : List PR) :
    ∀ a : PR,
      List.find? (fun q => decide (openTime q = openTime (maxFirst a l))) (a :: l) =
        some (maxFirst a l) := by
  induction l with
  | nil => intro a; simp [maxFirst]
  | cons b t ih =>
      intro a
      rw [maxFirst]
      by_cases hb : openTime b > openTime a
      · rw [if_pos hb]
        have hge := (maxFirst_ge t b).1
        have hne : ¬ (openTime a = openTime (maxFirst b t)) := by omega
        rw [List.find?_cons_of_neg _ (by simp [hne])]
        exact ih b
      · rw [if_neg hb]
        have hge := (maxFirst_ge t a).1
        by_cases heq : openTime a = openTime (maxFirst a t)
        · have hfind := ih a
          rw [List.find?_cons_of_pos _ (by simp [heq])] at hfind ⊢
          exact hfind
        · have hbne : ¬ (openTime b = openTime (maxFirst a t)) := by omega
          have hfind := ih a
          rw [List.find?_cons_of_neg _ (by simp [heq])] at hfind
          rw [List.find?_cons_of_neg _ (by simp [heq]),
            List.find?_cons_of_neg _ (by simp [hbne])]
          exact hfind

/-- C5: on every non-empty list the shortest (longest) reduce returns a PR
of minimal (maximal) open duration, and among ties the first in input
order: the result is what a first-match search for the extremal duration
finds.  For the durations 5, 1, 9, 1 the shortest is the first PR of
duration 1 and the longest is the PR of duration 9. -/
theorem shortest_longest_stable_extremes :
    (∀ prs : List PR, prs ≠ [] → ∃ d : Int,
      (∃ q ∈ prs, openTime q = d) ∧ (∀ q ∈ prs, d ≤ openTime q) ∧
      shortestJs prs = List.find? (fun q => decide (openTime q = d)) prs) ∧
    (∀ prs : List PR, prs ≠ [] → ∃ d : Int,
      (∃ q ∈ prs, openTime q = d) ∧ (∀ q ∈ prs, openTime q ≤ d) ∧
      longestJs prs = List.find? (fun q => decide (openTime q = d)) prs) ∧
    shortestJs tieNodes = some (mkPR 2 "b" 0 1) ∧
    longestJs tieNodes = some (mkPR 3 "c" 0 9) := by
  refine ⟨?_, ?_, by decide, by decide⟩
  · rintro (_ | ⟨p, l⟩) hne
    · exact absurd rfl hne
    refine ⟨openTime (minFirst p l), ⟨minFirst p l, minFirst_mem l p, rfl⟩, ?_, ?_⟩
    · intro q hq
      rcases List.mem_cons.mp hq with hq | hq
      · rw [hq]; exact (minFirst_le l p).1
      · exact (minFirst_le l p).2 q hq
    · rw [shortestJs_cons, minFirst_find l p]
  · rintro (_ | ⟨p, l⟩) hne
    · exact absurd rfl hne
    refine ⟨openTime (maxFirst p l), ⟨maxFirst p l, maxFirst_mem l p, rfl⟩, ?_, ?_⟩
    · intro q hq
      rcases List.mem_cons.mp hq with hq | hq
      · rw [hq]; exact (maxFirst_ge l p).1
      · exact (maxFirst_ge l p).2 q hq
    · rw [longestJs_cons, maxFirst_find l p]

/-- C5 witness: the shortest part applied to the tie scenario. -/
theorem shortest_longest_stable_extremes_witness :
    ∃ d : Int,
      (∃ q ∈ tieNodes, openTime q = d) ∧ (∀ q ∈ tieNodes, d ≤ openTime q) ∧
      shortestJs tieNodes = List.find? (fun q => decide (openTime q = d)) tieNodes :=
  shortest_longest_stable_extremes.1 tieNodes (by decide)

/-- The modelled percentile returns an element of the tagged list: on a
non-empty input the p90 entry is one of the input PRs paired with its own
open time. -/
theorem p90_mem (prs : List PR) (hne : prs ≠ []) :
    ∃ pr ∈ prs, p90Js prs = some (pr, openTime pr) := by
  set L := percentileVals prs with hL
  set sorted := List.insertionSort (fun x y : PR × Int => x.2 ≤ y.2) L with hsorted
  set k := max 1 ((90 * sorted.length + 99) / 100) with hk
  have hgoal : p90Js prs = sorted.get? (k - 1) := rfl
  have hperm : sorted.Perm L := List.perm_insertionSort _ L
  have hlen : sorted.length = L.length := hperm.length_eq
  have hLlen : L.length = prs.length := by simp [hL, percentileVals]
  have hpos : 0 < prs.length := List.length_pos.mpr hne
  have hn : 0 < sorted.length := by omega
  have hk1 : 1 ≤ k := le_max_left _ _
  have hkn : k ≤ sorted.length := by
    refine max_le hn ?_
    omega
  have hidx : k - 1 < sorted.length := by omega
  have hmem : sorted.get ⟨k - 1, hidx⟩ ∈ L :=
    hperm.mem_iff.mp (List.get_mem sorted _ _)
  rw [hL, percentileVals] at hmem
  obtain ⟨pr, hpr, hval⟩ := List.mem_map.mp hmem
  exact ⟨pr, hpr, by rw [hgoal, List.get?_eq_get hidx, ← hval]⟩

/-- C8: the 90th-percentile computation runs over the PR-tagged duration
list and its result is one of the input PRs tagged with its own open
duration, so the reported value carries that PR's number. -/
theorem p90_is_tagged_input_pr (prs : List PR) (hne : prs ≠ []) :
    ∃ pr ∈ prs, p90Js prs = some (pr, openTime pr) ∧
      (p90Js prs).map (fun item => item.1.number) = some pr.number := by
  obtain ⟨pr, hpr, hp90⟩ := p90_mem prs hne
  exact ⟨pr, hpr, hp90, by rw [hp90]; rfl⟩

/-- C8 witness: the tie scenario, whose p90 entry is the duration-9 PR. -/
theorem p90_is_tagged_input_pr_witness :
    ∃ pr ∈ tieNodes, p90Js tieNodes = some (pr, openTime pr) ∧
      (p90Js tieNodes).map (fun item => item.1.number) = some pr.number :=
  p90_is_tagged_input_pr tieNodes (by decide)

/-- The median is defined (not the NaN of the empty case) on every
non-empty duration list. -/
theorem medianJs_isSome (l : List Int) (hne : l ≠ []) : (medianJs l).isSome := by
  set sorted := List.insertionSort (· ≤ ·) l with hs
  have hmed : medianJs l =
      (if sorted.length % 2 = 1 then
        (sorted.get? (sorted.length / 2)).map (fun v => (v : ℚ))
      else
        match sorted.get? (sorted.length / 2 - 1), sorted.get? (sorted.length / 2) with
        | some a, some b => some (((a : ℚ) + (b : ℚ)) / 2)
        | _, _ => none) := rfl
  have hlen : sorted.length = l.length := (List.perm_insertionSort _ l).length_eq
  have hpos : 0 < l.length := List.length_pos.mpr hne
  have h1 : sorted.length / 2 < sorted.length := by omega
  rw [hmed]
  by_cases hodd : sorted.length % 2 = 1
  · rw [if_pos hodd, List.get?_eq_get h1]
    rfl
  · have hA : sorted.length / 2 - 1 < sorted.length := by omega
    rw [if_neg hodd, List.get?_eq_get hA, List.get?_eq_get h1]
    rfl

/-- C6: on every non-empty filtered list, well-formed or not (no hypothesis
relates mergedAt and createdAt, so negative open durations are allowed),
every statistic is defined and the whole Time to merge block renders
without an error. -/
theorem stats_total_on_nonempty (prs : List PR) (hne : prs ≠ []) :
    (shortestJs prs).isSome ∧ (longestJs prs).isSome ∧ (meanJs prs).isSome ∧
    (medianJs (prs.map openTime)).isSome ∧ (p90Js prs).isSome ∧
    ∃ st : MergeStats, timeToMergeBlock prs = Except.ok st := by
  match prs, hne with
  | p :: l, _ =>
    have hs := shortestJs_cons p l
    have hl := longestJs_cons p l
    have hmean : (meanJs (p :: l)).isSome := by simp [meanJs]
    have hmed : (medianJs ((p :: l).map openTime)).isSome :=
      medianJs_isSome _ (by simp)
    obtain ⟨pr, _, hp90⟩ := p90_mem (p :: l) (by simp)
    refine ⟨by rw [hs]; rfl, by rw [hl]; rfl, hmean, hmed, by rw [hp90]; rfl,
      ⟨(minFirst p l).number, (maxFirst p l).number, meanJs (p :: l),
        medianJs ((p :: l).map openTime), pr.number⟩, ?_⟩
    simp [timeToMergeBlock, hs, hl, hp90]

/-- C6 witness: a list whose first PR has a negative open duration. -/
theorem stats_total_on_nonempty_witness :
    (∃ pr ∈ negNodes, pr.mergedAt < pr.createdAt) ∧
    ((shortestJs negNodes).isSome ∧ (longestJs negNodes).isSome ∧
     (meanJs negNodes).isSome ∧
     (medianJs (negNodes.map openTime)).isSome ∧ (p90Js negNodes).isSome ∧
     ∃ st : MergeStats, timeToMergeBlock negNodes = Except.ok st) :=
  ⟨by decide, stats_total_on_nonempty negNodes (by decide)⟩

theorem lookup_cons_ne (s k : String) (v : Nat) (rest : List (String × Nat))
    (h : ¬ s = k) : List.lookup s ((k, v) :: rest) = List.lookup s rest := by
  have hb : (s == k) = false := by simp [h]
  rw [List.lookup_cons, hb]

theorem lookup_cons_eq (s k : String) (v : Nat) (rest : List (String × Nat))
    (h : s = k) : List.lookup s ((k, v) :: rest) = some v := by
  have hb : (s == k) = true := by simp [h]
  rw [List.lookup_cons, hb]

/-- bump keeps the key order and appends an unseen login at the end. -/
theorem bump_keys (owners : List (String × Nat)) (x : String) :
    (bump owners x).map Prod.fst =
      if x ∈ owners.map Prod.fst then owners.map Prod.fst
      else owners.map Prod.fst ++ [x] := by
  induction owners with
  | nil => simp [bump]
  | cons kv rest ih =>
      obtain ⟨k, v⟩ := kv
      by_cases hk : k = x
      · subst hk
        simp [bump]
      · have hxk : ¬ x = k := fun h => hk h.symm
        simp only [bump, if_neg hk, List.map_cons, ih]
        by_cases hx : x ∈ rest.map Prod.fst
        · simp [List.mem_cons, hxk, hx]
        · simp [List.mem_cons, hxk, hx]

/-- bump increments the bumped login and leaves every other login alone. -/
theorem bump_lookup (owners : List (String × Nat)) (x s : String) :
    List.lookup s (bump owners x) =
      if s = x then some ((List.lookup x owners).getD 0 + 1)
      else List.lookup s owners := by
  induction owners with
  | nil =>
      by_cases hs : s = x
      · subst hs
        simp [bump, lookup_cons_eq s s 1 [] rfl]
      · simp [bump, hs, lookup_cons_ne s x 1 [] hs]
  | cons kv rest ih =>
      obtain ⟨k, v⟩ := kv
      by_cases hk : k = x
      · subst hk
        have hbump : bump ((k, v) :: rest) k = (k, v + 1) :: rest := by
          simp [bump]
        rw [hbump]
        by_cases hs : s = k
        · rw [lookup_cons_eq s k (v + 1) rest hs, if_pos hs,
            lookup_cons_eq k k v rest rfl]
          rfl
        · rw [lookup_cons_ne s k (v + 1) rest hs, if_neg hs,
            lookup_cons_ne s k v rest hs]
      · have hbump : bump ((k, v) :: rest) x = (k, v) :: bump rest x := by
          simp [bump, hk]
        rw [hbump]
        by_cases hs : s = k
        · have hsx : ¬ s = x := by rw [hs]; exact hk
          rw [lookup_cons_eq s k v (bump rest x) hs, if_neg hsx,
            lookup_cons_eq s k v rest hs]
        · rw [lookup_cons_ne s k v (bump rest x) hs, ih]
          by_cases hsx : s = x
          · rw [if_pos hsx, if_pos hsx]
            have hxk : ¬ x = k := fun h => hk h.symm
            rw [lookup_cons_ne x k v rest hxk]
          · rw [if_neg hsx, if_neg hsx, lookup_cons_ne s k v rest hs]

/-- Folding bump over a login list: each login is bound to its previous
count plus its number of occurrences, an unseen login only when it occurs. -/
theorem foldl_bump_lookup (ls : List String) :
    ∀ (owners : List (String × Nat)) (s : String),
      List.lookup s (ls.foldl bump owners) =
        match List.lookup s owners with
        | some v => some (v + ls.count s)
        | none => if s ∈ ls then some (ls.count s) else none := by
  induction ls with
  | nil =>
      intro owners s
      cases h : List.lookup s owners <;> simp [h]
  | cons x xs ih =>
      intro owners s
      rw [List.foldl_cons, ih (bump owners x) s, bump_lookup]
      by_cases hs : s = x
      · subst hs
        rw [if_pos rfl]
        cases h : List.lookup s owners <;>
          simp [h, List.count_cons_self] <;> omega
      · rw [if_neg hs]
        have hxs : ¬ x = s := fun h => hs h.symm
        have hb : (x == s) = false := by simp [hxs]
        have hc : (x :: xs).count s = xs.count s := by
          rw [List.count_cons, hb]
          simp
        cases h : List.lookup s owners <;>
          simp [h, hc, List.mem_cons, hs]

/-- Folding bump over a login list appends the unseen logins in first-seen
order after the keys already present. -/
theorem foldl_bump_keys (ls : List String) :
    ∀ owners : List (String × Nat),
      (ls.foldl bump owners).map Prod.fst =
        owners.map Prod.fst ++ newKeys (owners.map Prod.fst) ls := by
  induction ls with
  | nil => intro owners; simp [newKeys]
  | cons x xs ih =>
      intro owners
      rw [List.foldl_cons, ih (bump owners x), bump_keys, newKeys]
      by_cases hx : x ∈ owners.map Prod.fst
      · rw [if_pos hx, if_pos hx]
      · rw [if_neg hx, if_neg hx]
        simp

/-- The accumulator-style first-occurrence order agrees with the
filter-style one once the seen keys are removed. -/
theorem newKeys_eq_firstSeen (ls : List String) :
    ∀ seen : List String,
      newKeys seen ls = firstSeen (ls.filter (fun y => y ∉ seen)) := by
  induction ls with
  | nil => intro seen; simp [newKeys, firstSeen]
  | cons x xs ih =>
      intro seen
      rw [newKeys, List.filter_cons]
      by_cases hx : x ∈ seen
      · rw [if_pos hx, if_neg (by simp [hx])]
        exact ih seen
      · rw [if_neg hx, if_pos (by simp [hx]), firstSeen]
        congr 1
        rw [ih (seen ++ [x]), List.filter_filter]
        congr 1
        apply List.filter_congr
        intro y hy
        by_cases h1 : y = x <;> by_cases h2 : y ∈ seen <;>
          simp [h1, h2, List.mem_append]

/-- C4: the author-count mapping binds each distinct login to the number of
its PRs, its key order is the order of first occurrence in the input, and
on the logins A, B, A it yields A bound to 2 before B bound to 1. -/
theorem author_counts_first_seen_order :
    (∀ prs : List PR,
      (authorsOf prs).map Prod.fst =
        firstSeen (prs.map (fun pr => pr.author.login)) ∧
      (∀ s : String,
        List.lookup s (authorsOf prs) =
          if (prs.map (fun pr => pr.author.login)).count s = 0 then none
          else some ((prs.map (fun pr => pr.author.login)).count s))) ∧
    authorsOf authorNodes = [("A", 2), ("B", 1)] := by
  have hfold : ∀ prs : List PR,
      authorsOf prs = (prs.map (fun pr => pr.author.login)).foldl bump [] := by
    intro prs
    rw [authorsOf, List.foldl_map]
  refine ⟨?_, by decide⟩
  intro prs
  constructor
  · rw [hfold, foldl_bump_keys]
    rw [show (([] : List (String × Nat)).map Prod.fst) = [] from rfl,
      List.nil_append, newKeys_eq_firstSeen]
    congr 1
    apply List.filter_eq_self.mpr
    intro y hy
    simp
  · intro s
    rw [hfold, foldl_bump_lookup]
    rw [show List.lookup s ([] : List (String × Nat)) = none from rfl]
    by_cases hmem : s ∈ prs.map (fun pr => pr.author.login)
    · have hc : (prs.map (fun pr => pr.author.login)).count s ≠ 0 := by
        have := List.count_pos_iff.mpr hmem
        omega
      simp [hmem, hc]
    · have hc : (prs.map (fun pr => pr.author.login)).count s = 0 :=
        List.count_eq_zero.mpr hmem
      simp [hmem, hc]

end GithubStats
